import Mathlib

/-!
# Domain filter: a Lean model of `main.cpp`

The program parses dotted domain names (`Domain`), builds a label trie from a
list of forbidden domains (`DomainChecker`) and answers, for a candidate
domain, whether it is forbidden (`DomainChecker.IsForbidden`).

Strings (`std::string`, `std::string_view`) are modelled as lists of
characters, `std::vector` as `List`, `size_t` positions as `Nat` and
`string_view::npos` as `none`.
-/

set_option autoImplicit false

namespace DomainFilter

/-- Model of `std::string` / `std::string_view`: the sequence of its characters. -/
abbrev Str := List Char

/-! ## The two `string_view` operations used by the `Domain` constructor -/

/-- Scan `s` from its head, whose position in the whole string is `i`, for
the first occurrence of `ch`. -/
def findFrom (ch : Char) : Str → Nat → Option Nat
  | [], _ => none
  | c :: cs, i => if c = ch then some i else findFrom ch cs (i + 1)

/-- Model of `string_view::find(ch, pos)`: the position of the first
occurrence of `ch` at or after `pos`; `none` stands for `npos`. -/
def find (s : Str) (ch : Char) (pos : Nat) : Option Nat :=
  findFrom ch (s.drop pos) pos

/-- Model of `string_view::substr(pos, count)`: the characters from `pos`,
at most `count` of them (`count = none` is the default `npos`: up to the end).
The call throws `std::out_of_range` when `pos > size()`; that is `none`. -/
def substr (s : Str) (pos : Nat) (count : Option Nat) : Option Str :=
  if s.length < pos then none
  else
    match count with
    | some n => some ((s.drop pos).take n)
    | none => some (s.drop pos)

/-! ## `class Domain` -/

/-- Model of `class Domain`: the vector `data_` of labels, leftmost label first. -/
structure Domain where
  data_ : List Str
  deriving DecidableEq, Repr

set_option linter.unusedVariables false in
/-- The `while` loop of the constructor `Domain::Domain(string_view)` together
with the final `push_back`. `start` is the loop variable of the same name,
`data_` the labels pushed so far; the variable `end` always holds
`raw_domain.find('.', start)` when the loop condition is tested, so it is
computed there. The result is `none` when a `substr` call throws. -/
def Domain.ctorLoop (raw_domain : Str) (start : Nat) (data_ : List Str) :
    Option (List Str) :=
  match h : find raw_domain '.' start with
  | some end_ =>
    match substr raw_domain start (some (end_ - start)) with
    | some label => Domain.ctorLoop raw_domain (end_ + 1) (data_ ++ [label])
    | none => none
  | none =>
    match substr raw_domain start none with
    | some label => some (data_ ++ [label])
    | none => none
termination_by raw_domain.length - start
decreasing_by
  have key : ∀ (s : Str) (i e : Nat), findFrom '.' s i = some e → i ≤ e ∧ e < i + s.length := by
    intro s
    induction s with
    | nil => intro i e he; simp [findFrom] at he
    | cons c cs ih =>
      intro i e he
      simp only [findFrom] at he
      split at he
      · simp only [Option.some.injEq] at he
        subst he
        simp
      · have := ih (i + 1) e he
        simp only [List.length_cons]
        omega
  have hk := key (raw_domain.drop start) start end_ h
  simp only [List.length_drop] at hk
  omega

/-- Model of the constructor `Domain::Domain(string_view raw_domain)`. -/
def Domain.ctor (raw_domain : Str) : Option Domain :=
  (Domain.ctorLoop raw_domain 0 []).map Domain.mk

/-- Model of `Domain::GetSubDomains`. -/
def Domain.GetSubDomains (d : Domain) : List Str := d.data_

/-- Model of `Domain::DomainDataCompare`: both arguments are the label
sequences in the order the reverse iterators visit them; the loop stops at the
end of the shorter one. -/
def Domain.DomainDataCompare : List Str → List Str → Bool
  | l :: ls, r :: rs => if l ≠ r then false else Domain.DomainDataCompare ls rs
  | _, _ => true

/-- Model of `Domain::operator==`. -/
def Domain.eq (self other : Domain) : Bool :=
  if self.data_.length ≠ other.data_.length then false
  else Domain.DomainDataCompare self.data_.reverse other.data_.reverse

/-- Model of `Domain::IsSubdomain`. -/
def Domain.IsSubdomain (self other : Domain) : Bool :=
  if self.data_.length ≥ other.data_.length then false
  else Domain.DomainDataCompare self.data_.reverse other.data_.reverse

/-! ## `struct SubDomain` and `class DomainChecker` -/

/-- Model of `struct SubDomain`: the map `sub_domains_` from a label to an
owned child node; a `unique_ptr` is `some node`, or `none` when it is null.
The `unordered_map` is an association list that holds each key once; the
program never iterates over it, so the order of the entries is not observed. -/
inductive SubDomain where
  | mk (sub_domains_ : List (Str × Option SubDomain)) : SubDomain

/-- The type of the member `SubDomain::sub_domains_`. -/
abbrev SubDomainMap := List (Str × Option SubDomain)

/-- The member `sub_domains_` of a node. -/
def SubDomain.sub_domains_ : SubDomain → SubDomainMap
  | .mk m => m

/-- Model of `unordered_map::find`: `none` is `end()`, `some v` an iterator to
the entry whose mapped pointer is `v`. -/
def SubDomainMap.find : SubDomainMap → Str → Option (Option SubDomain)
  | [], _ => none
  | (k, v) :: rest, key => if k = key then some v else SubDomainMap.find rest key

/-- Model of a write through the reference `sub_domains_[key]`: the entry of
`key` is created when it is missing and its mapped pointer becomes `v`. -/
def SubDomainMap.assign : SubDomainMap → Str → Option SubDomain → SubDomainMap
  | [], key, v => [(key, v)]
  | (k, w) :: rest, key, v =>
    if k = key then (k, v) :: rest else (k, w) :: SubDomainMap.assign rest key v

/-- The inner `for` loop of the constructor of `DomainChecker` (lines 98-117),
started at the node `top`; the list holds the labels the reverse iterator has
still to visit, so its head is `*it_current` and the head is the element
`sub_domains.front()` exactly when nothing follows it. The result is the node
`top` after the loop. -/
def DomainChecker.insertLabels (top : SubDomain) : List Str → SubDomain
  | [] => top
  | it_current :: rest =>
    match SubDomainMap.find top.sub_domains_ it_current with
    | some none => top
    | it_find =>
      let child : Option SubDomain := it_find.getD none
      if rest ≠ [] then
        let node : SubDomain :=
          match child with
          | some n => n
          | none => SubDomain.mk []
        SubDomain.mk (SubDomainMap.assign top.sub_domains_ it_current
          (some (DomainChecker.insertLabels node rest)))
      else
        SubDomain.mk (SubDomainMap.assign top.sub_domains_ it_current none)

/-- One iteration of the outer `for` loop (lines 92-118) on the root node. -/
def DomainChecker.insertDomain (forbidden_domains_ : SubDomain) (domain : Domain) :
    SubDomain :=
  DomainChecker.insertLabels forbidden_domains_ domain.GetSubDomains.reverse

/-- The outer `for` loop of the constructor (lines 92-118) over the sorted
vector `domains_`, started with an empty root node. -/
def DomainChecker.buildLoop (domains_ : List Domain) : SubDomain :=
  domains_.foldl DomainChecker.insertDomain (SubDomain.mk [])

/-- Model of `class DomainChecker`. -/
structure DomainChecker where
  forbidden_domains_ : SubDomain
  domains_ : List Domain

/-- The comparison passed to `std::sort` (lines 87-89). -/
def DomainChecker.sortLess (lhs rhs : Domain) : Bool :=
  decide (lhs.GetSubDomains.length < rhs.GetSubDomains.length)

/-- What `std::sort` guarantees about `domains_` after line 89: `sorted` is a
rearrangement of `input` in which no element compares less than an earlier
one. The sort is not stable, so entries with equally many labels may come out
in any order; every such outcome satisfies this predicate. -/
def DomainChecker.IsSortResult (input sorted : List Domain) : Prop :=
  sorted.Perm input ∧
    sorted.Pairwise (fun earlier later => DomainChecker.sortLess later earlier = false)

/-- One admissible outcome of the `std::sort` call, computed by a merge sort. -/
def DomainChecker.sortDomains (input : List Domain) : List Domain :=
  input.mergeSort (fun lhs rhs => !DomainChecker.sortLess rhs lhs)

/-- Model of the constructor of `DomainChecker`, from the content `sorted` of
`domains_` after the `std::sort` call. -/
def DomainChecker.ctor (sorted : List Domain) : DomainChecker :=
  { forbidden_domains_ := DomainChecker.buildLoop sorted, domains_ := sorted }

/-- The `for` loop of `DomainChecker::IsForbidden` started at node `top`; the
list holds the labels the reverse iterator has still to visit. -/
def DomainChecker.isForbiddenLoop (top : SubDomain) : List Str → Bool
  | [] => false
  | it_current :: rest =>
    match SubDomainMap.find top.sub_domains_ it_current with
    | some none => true
    | some (some child) => DomainChecker.isForbiddenLoop child rest
    | none => false

/-- Model of `DomainChecker::IsForbidden`. -/
def DomainChecker.IsForbidden (self : DomainChecker) (domain : Domain) : Bool :=
  DomainChecker.isForbiddenLoop self.forbidden_domains_ domain.GetSubDomains.reverse

/-! ## `ReadDomains` and `main` -/

/-- Model of the loop of `ReadDomains` (lines 154-158) on the lines it reads:
each line is passed to the `Domain` constructor and the result is appended. -/
def ReadDomains (lines : List Str) : Option (List Domain) :=
  lines.mapM Domain.ctor

/-- The token `main` prints for one candidate (line 180). -/
def verdict (checker : DomainChecker) (domain : Domain) : String :=
  if checker.IsForbidden domain then "Bad" else "Good"

/-! ## Observations of the trie and of the construction -/

/-- The root-to-leaf label path `path` (top-level label first) is marked as a
terminus in the trie under `top`: following the labels leads through entries
with a non-null child and ends, with the last label, at an entry whose child
is null. -/
def SubDomain.isTerminus (top : SubDomain) : List Str → Bool
  | [] => false
  | label :: rest =>
    match SubDomainMap.find top.sub_domains_ label with
    | some none => decide (rest = [])
    | some (some child) => SubDomain.isTerminus child rest
    | none => false

/-- The root-to-node label path `path` (top-level label first) leads to a
subtree of the trie under `top`: every label on it, the last one included, is
found in an entry with a non-null child. -/
def SubDomain.isInner (top : SubDomain) : List Str → Bool
  | [] => false
  | label :: rest =>
    match SubDomainMap.find top.sub_domains_ label with
    | some (some child) => decide (rest = []) || SubDomain.isInner child rest
    | _ => false

/-- The values the pointer `child` holds just before each execution of
`child.reset()` (line 115) during the inner `for` loop of the constructor of
`DomainChecker` started at the node `top`. The control flow is the one of
`DomainChecker.insertLabels`; `child` is the mapped pointer of the entry that
`sub_domains_[*it_current]` finds or creates (null when it creates it). -/
def DomainChecker.resetChildren (top : SubDomain) : List Str → List (Option SubDomain)
  | [] => []
  | it_current :: rest =>
    match SubDomainMap.find top.sub_domains_ it_current with
    | some none => []
    | it_find =>
      let child : Option SubDomain := it_find.getD none
      if rest ≠ [] then
        let node : SubDomain :=
          match child with
          | some n => n
          | none => SubDomain.mk []
        DomainChecker.resetChildren node rest
      else
        [child]

/-- The values of `child` before each execution of `child.reset()` during the
outer `for` loop (lines 92-118) over `domains_`, started with the root node
`forbidden_domains_`. -/
def DomainChecker.buildResets (forbidden_domains_ : SubDomain) :
    List Domain → List (Option SubDomain)
  | [] => []
  | domain :: rest =>
    DomainChecker.resetChildren forbidden_domains_ domain.GetSubDomains.reverse ++
      DomainChecker.buildResets (DomainChecker.insertDomain forbidden_domains_ domain) rest

/-! ## Lemmas about the map and the trie loops -/

theorem SubDomainMap.find_assign (m : SubDomainMap) (key key2 : Str) (v : Option SubDomain) :
    SubDomainMap.find (SubDomainMap.assign m key v) key2 =
      if key = key2 then some v else SubDomainMap.find m key2 := by
  induction m with
  | nil => simp [SubDomainMap.assign, SubDomainMap.find]
  | cons e rest ih =>
    obtain ⟨k, w⟩ := e
    by_cases hk : k = key
    · subst hk
      by_cases h2 : k = key2 <;> simp [SubDomainMap.assign, SubDomainMap.find, h2]
    · by_cases h2 : k = key2
      · subst h2
        have : ¬ key = k := fun h => hk h.symm
        simp [SubDomainMap.assign, SubDomainMap.find, hk, this]
      · simp [SubDomainMap.assign, SubDomainMap.find, hk, h2, ih]

theorem DomainChecker.isForbiddenLoop_empty (q : List Str) :
    DomainChecker.isForbiddenLoop (SubDomain.mk []) q = false := by
  cases q <;> simp [DomainChecker.isForbiddenLoop, SubDomain.sub_domains_, SubDomainMap.find]

theorem SubDomain.sub_domains_mk (m : SubDomainMap) : (SubDomain.mk m).sub_domains_ = m := rfl

theorem DomainChecker.insertLabels_of_terminus (top : SubDomain) (l : Str) (rest : List Str)
    (h : SubDomainMap.find top.sub_domains_ l = some none) :
    DomainChecker.insertLabels top (l :: rest) = top := by
  simp only [DomainChecker.insertLabels, h]

theorem DomainChecker.insertLabels_last (top : SubDomain) (l : Str)
    (h : SubDomainMap.find top.sub_domains_ l ≠ some none) :
    DomainChecker.insertLabels top [l] =
      SubDomain.mk (SubDomainMap.assign top.sub_domains_ l none) := by
  unfold DomainChecker.insertLabels
  split
  · next h2 => exact absurd h2 h
  · simp

theorem DomainChecker.insertLabels_new (top : SubDomain) (l : Str) (rest : List Str)
    (h : SubDomainMap.find top.sub_domains_ l = none) (hrest : rest ≠ []) :
    DomainChecker.insertLabels top (l :: rest) =
      SubDomain.mk (SubDomainMap.assign top.sub_domains_ l
        (some (DomainChecker.insertLabels (SubDomain.mk []) rest))) := by
  rw [DomainChecker.insertLabels]
  split
  · next h2 => rw [h] at h2; cases h2
  · simp [hrest, h]

theorem DomainChecker.insertLabels_node (top node : SubDomain) (l : Str) (rest : List Str)
    (h : SubDomainMap.find top.sub_domains_ l = some (some node)) (hrest : rest ≠ []) :
    DomainChecker.insertLabels top (l :: rest) =
      SubDomain.mk (SubDomainMap.assign top.sub_domains_ l
        (some (DomainChecker.insertLabels node rest))) := by
  rw [DomainChecker.insertLabels]
  split
  · next h2 => rw [h] at h2; cases h2
  · simp [hrest, h]

theorem DomainChecker.isForbiddenLoop_cons (top : SubDomain) (l : Str) (q : List Str) :
    DomainChecker.isForbiddenLoop top (l :: q) =
      match SubDomainMap.find top.sub_domains_ l with
      | some none => true
      | some (some child) => DomainChecker.isForbiddenLoop child q
      | none => false := by
  rw [DomainChecker.isForbiddenLoop]

/-- The effect of the insertion loop on later queries: after inserting a
non-empty label path `p`, a query path `q` is accepted exactly when it was
accepted before or starts with `p`. -/
theorem DomainChecker.isForbiddenLoop_insertLabels (p : List Str) :
    ∀ (top : SubDomain) (q : List Str), p ≠ [] →
      (DomainChecker.isForbiddenLoop (DomainChecker.insertLabels top p) q = true ↔
        DomainChecker.isForbiddenLoop top q = true ∨ p <+: q) := by
  induction p with
  | nil => intro top q h; exact absurd rfl h
  | cons l rest ih =>
    intro top q _
    cases q with
    | nil =>
      have h1 : ∀ t : SubDomain, DomainChecker.isForbiddenLoop t [] = false := fun t => by
        rw [DomainChecker.isForbiddenLoop]
      simp [h1]
    | cons l2 q2 =>
      -- the shape of the node after the insertion
      have hshape : DomainChecker.insertLabels top (l :: rest) = top ∧
            SubDomainMap.find top.sub_domains_ l = some none ∨
          ∃ v, DomainChecker.insertLabels top (l :: rest) =
              SubDomain.mk (SubDomainMap.assign top.sub_domains_ l v) ∧
            SubDomainMap.find top.sub_domains_ l ≠ some none ∧
            ∀ q3, ((match v with
                    | none => true
                    | some child => DomainChecker.isForbiddenLoop child q3) = true ↔
              (match SubDomainMap.find top.sub_domains_ l with
                | some none => true
                | some (some child) => DomainChecker.isForbiddenLoop child q3
                | none => false) = true ∨ rest <+: q3) := by
        cases hfind : SubDomainMap.find top.sub_domains_ l with
        | none =>
          right
          by_cases hrest : rest = []
          · subst hrest
            exact ⟨none, DomainChecker.insertLabels_last top l (by simp [hfind]), by simp,
              by simp⟩
          · exact ⟨_, DomainChecker.insertLabels_new top l rest hfind hrest, by simp,
              fun q3 => by simp [ih _ q3 hrest, DomainChecker.isForbiddenLoop_empty]⟩
        | some v =>
          cases v with
          | none => exact Or.inl ⟨DomainChecker.insertLabels_of_terminus top l rest hfind, rfl⟩
          | some node =>
            right
            by_cases hrest : rest = []
            · subst hrest
              exact ⟨none, DomainChecker.insertLabels_last top l (by simp [hfind]), by simp,
                by simp⟩
            · exact ⟨_, DomainChecker.insertLabels_node top node l rest hfind hrest, by simp,
                fun q3 => by simp [ih _ q3 hrest]⟩
      rcases hshape with ⟨heq, hterm⟩ | ⟨v, heq, _, hv⟩
      · rw [heq]
        constructor
        · exact Or.inl
        · rintro (h | h)
          · exact h
          · have hl : l = l2 := (List.cons_prefix_cons.mp h).1
            subst hl
            rw [DomainChecker.isForbiddenLoop_cons, hterm]
      · rw [heq, DomainChecker.isForbiddenLoop_cons, DomainChecker.isForbiddenLoop_cons,
          SubDomain.sub_domains_mk, SubDomainMap.find_assign]
        by_cases hl : l = l2
        · subst hl
          have hq := hv q2
          cases v <;> simpa [List.cons_prefix_cons] using hq
        · simp [hl, List.cons_prefix_cons]

theorem DomainChecker.isForbiddenLoop_foldl (ds : List Domain) (hne : ∀ d ∈ ds, d.data_ ≠ []) :
    ∀ (top : SubDomain) (q : List Str),
      (DomainChecker.isForbiddenLoop (ds.foldl DomainChecker.insertDomain top) q = true ↔
        DomainChecker.isForbiddenLoop top q = true ∨ ∃ d ∈ ds, d.data_.reverse <+: q) := by
  induction ds with
  | nil => intro top q; simp
  | cons d ds ih =>
    intro top q
    have hd : d.data_.reverse ≠ [] := by
      simpa using hne d (List.mem_cons_self _ _)
    rw [List.foldl_cons, ih (fun e he => hne e (List.mem_cons_of_mem _ he)),
      DomainChecker.insertDomain, Domain.GetSubDomains,
      DomainChecker.isForbiddenLoop_insertLabels _ _ _ hd]
    simp only [List.mem_cons, exists_eq_or_imp, or_assoc]

/-- The trie built from any list of domains with at least one label each
accepts exactly the candidates that end with the labels of one of them. -/
theorem DomainChecker.isForbidden_buildLoop (ds : List Domain) (hne : ∀ d ∈ ds, d.data_ ≠ [])
    (c : Domain) :
    DomainChecker.isForbiddenLoop (DomainChecker.buildLoop ds) c.data_.reverse = true ↔
      ∃ d ∈ ds, d.data_ <:+ c.data_ := by
  rw [DomainChecker.buildLoop, DomainChecker.isForbiddenLoop_foldl ds hne,
    DomainChecker.isForbiddenLoop_empty]
  simp [List.reverse_prefix]

/-! ## Lemmas about the `Domain` constructor -/

theorem findFrom_eq_none (ch : Char) (s : Str) (i : Nat) (h : findFrom ch s i = none) :
    ch ∉ s := by
  induction s generalizing i with
  | nil => simp
  | cons c cs ih =>
    simp only [findFrom] at h
    split at h
    · cases h
    · next hc =>
      simp only [List.mem_cons, not_or]
      exact ⟨fun e => hc e.symm, ih (i + 1) h⟩

theorem findFrom_eq_some (ch : Char) (s : Str) (i e : Nat) (h : findFrom ch s i = some e) :
    ∃ pre post, s = pre ++ ch :: post ∧ ch ∉ pre ∧ e = i + pre.length := by
  induction s generalizing i with
  | nil => simp [findFrom] at h
  | cons c cs ih =>
    simp only [findFrom] at h
    split at h
    · next hc =>
      simp only [Option.some.injEq] at h
      exact ⟨[], cs, by simp [hc], by simp, by simp [h]⟩
    · next hc =>
      obtain ⟨pre, post, hs, hpre, he⟩ := ih (i + 1) h
      refine ⟨c :: pre, post, by simp [hs], ?_, by simp [he]; omega⟩
      simp only [List.mem_cons, not_or]
      exact ⟨fun e => hc e.symm, hpre⟩

/-- The constructor loop started at a position inside the string pushes the
pieces of the rest of the string between its dots. -/
theorem Domain.ctorLoop_eq (raw : Str) :
    ∀ (n start : Nat) (data : List Str), raw.length - start = n → start ≤ raw.length →
      Domain.ctorLoop raw start data = some (data ++ (raw.drop start).splitOn '.') := by
  intro n
  induction n using Nat.strong_induction_on with
  | _ n ih =>
    intro start data hn hstart
    rw [Domain.ctorLoop]
    have hsub : ∀ cnt, substr raw start cnt =
        some (match cnt with
          | some k => (raw.drop start).take k
          | none => raw.drop start) := by
      intro cnt
      have : ¬ raw.length < start := by omega
      cases cnt <;> simp [substr, this]
    split
    · next end_ hfind =>
      obtain ⟨pre, post, hs, hpre, he⟩ := findFrom_eq_some _ _ _ _ hfind
      have hlen : raw.length - start = pre.length + 1 + post.length := by
        have := congrArg List.length hs
        simp only [List.length_drop, List.length_append, List.length_cons] at this
        omega
      have htake : (raw.drop start).take (end_ - start) = pre := by
        rw [hs, he]
        simp
      have hdrop : raw.drop (end_ + 1) = post := by
        have : end_ + 1 = start + (pre.length + 1) := by omega
        rw [this, ← List.drop_drop, hs]
        simp
      rw [hsub]
      simp only
      rw [ih (raw.length - (end_ + 1)) (by omega) (end_ + 1) _ rfl (by omega), htake, hdrop,
        hs, List.splitOn, List.splitOn,
        List.splitOnP_first _ pre (fun x hx hp => hpre (by rw [beq_iff_eq] at hp; exact hp ▸ hx)) '.' (by simp)]
      simp
    · next hfind =>
      have hno := findFrom_eq_none _ _ _ hfind
      rw [hsub]
      simp only
      rw [List.splitOn, List.splitOnP_eq_single _ _ (fun x hx hp => hno (by rw [beq_iff_eq] at hp; exact hp ▸ hx))]

/-- The constructor returns for every raw string, and its labels are the
pieces of the raw string between its dots. -/
theorem Domain.ctor_eq (raw : Str) : Domain.ctor raw = some ⟨raw.splitOn '.'⟩ := by
  rw [Domain.ctor, Domain.ctorLoop_eq raw _ 0 [] rfl (Nat.zero_le _)]
  simp

theorem splitOn_dot_ne_nil (xs : Str) : xs.splitOn '.' ≠ [] :=
  List.splitOnP_ne_nil _ xs

theorem splitOn_dot_cons (c : Char) (cs : Str) :
    (c :: cs).splitOn '.' =
      if c = '.' then [] :: cs.splitOn '.' else (cs.splitOn '.').modifyHead (List.cons c) := by
  simp only [List.splitOn, List.splitOnP_cons, beq_iff_eq]

theorem splitOn_dot_not_mem (xs : Str) : ∀ l ∈ xs.splitOn '.', '.' ∉ l := by
  induction xs with
  | nil => simp
  | cons c cs ih =>
    rw [splitOn_dot_cons]
    split
    · intro l hl
      rcases List.mem_cons.mp hl with h | h
      · simp [h]
      · exact ih l h
    · next hc =>
      cases hS : cs.splitOn '.' with
      | nil => exact absurd hS (splitOn_dot_ne_nil cs)
      | cons hd tl =>
        rw [hS] at ih
        intro l hl
        simp only [List.modifyHead_cons, List.mem_cons] at hl
        rcases hl with h | h
        · subst h
          simp only [List.mem_cons, not_or]
          exact ⟨fun e => hc e.symm, ih hd (List.mem_cons_self _ _)⟩
        · exact ih l (List.mem_cons_of_mem _ h)

/-- The first piece of a split is empty only for the empty string and for a
string that starts with a dot. -/
theorem splitOn_dot_head_nil (xs : Str) (tl : List Str) (h : xs.splitOn '.' = [] :: tl) :
    xs = [] ∨ xs.head? = some '.' := by
  cases xs with
  | nil => exact Or.inl rfl
  | cons c cs =>
    right
    rw [splitOn_dot_cons] at h
    split at h
    · next hc => simp [hc]
    · cases hS : cs.splitOn '.' with
      | nil => exact absurd hS (splitOn_dot_ne_nil cs)
      | cons hd tl2 => rw [hS] at h; simp at h

/-- A later piece of a split is empty only when the string ends with a dot or
has two dots in a row. -/
theorem splitOn_dot_tail_nil (xs : Str) :
    ∀ (hd : Str) (tl : List Str), xs.splitOn '.' = hd :: tl → [] ∈ tl →
      xs.getLast? = some '.' ∨ ['.', '.'] <:+: xs := by
  induction xs with
  | nil =>
    intro hd tl h hmem
    rw [List.splitOn_nil] at h
    cases h
    simp at hmem
  | cons c cs ih =>
    intro hd tl h hmem
    have lift : cs.getLast? = some '.' ∨ ['.', '.'] <:+: cs →
        (c :: cs).getLast? = some '.' ∨ ['.', '.'] <:+: c :: cs := by
      rintro (h1 | h1)
      · left
        cases cs with
        | nil => simp at h1
        | cons d ds => simpa [List.getLast?_cons_cons] using h1
      · exact Or.inr (h1.trans (List.infix_cons (List.infix_refl _)))
    rw [splitOn_dot_cons] at h
    cases hS : cs.splitOn '.' with
    | nil => exact absurd hS (splitOn_dot_ne_nil cs)
    | cons hd2 tl2 =>
      rw [hS] at h
      split at h
      · next hc =>
        subst hc
        simp only [List.cons.injEq] at h
        rw [← h.2] at hmem
        rcases List.mem_cons.mp hmem with h0 | h0
        · rcases splitOn_dot_head_nil cs tl2 (by rw [hS, ← h0]) with hnil | hdot
          · left; simp [hnil]
          · right
            cases cs with
            | nil => simp at hdot
            | cons d ds =>
              simp only [List.head?_cons, Option.some.injEq] at hdot
              subst hdot
              exact ⟨[], ds, by simp⟩
        · exact lift (ih hd2 tl2 hS h0)
      · simp only [List.modifyHead_cons, List.cons.injEq] at h
        rw [← h.2] at hmem
        exact lift (ih hd2 tl2 hS hmem)

/-! ## Lemmas about the comparisons of `Domain` -/

/-- The comparison loop succeeds exactly when one sequence starts with the other. -/
theorem Domain.domainDataCompare_iff (xs : List Str) :
    ∀ ys : List Str, Domain.DomainDataCompare xs ys = true ↔ xs <+: ys ∨ ys <+: xs := by
  induction xs with
  | nil => intro ys; simp [Domain.DomainDataCompare]
  | cons x xs ih =>
    intro ys
    cases ys with
    | nil => simp [Domain.DomainDataCompare]
    | cons y ys =>
      by_cases hxy : x = y
      · subst hxy
        simp [Domain.DomainDataCompare, ih ys, List.cons_prefix_cons]
      · have hyx : ¬ y = x := fun e => hxy e.symm
        simp [Domain.DomainDataCompare, hxy, hyx, List.cons_prefix_cons]

theorem Domain.eq_true_iff (A B : Domain) : Domain.eq A B = true ↔ A.data_ = B.data_ := by
  unfold Domain.eq
  by_cases hlen : A.data_.length = B.data_.length
  · simp only [ne_eq, hlen, not_true_eq_false, if_false, Domain.domainDataCompare_iff,
      List.reverse_prefix]
    constructor
    · rintro (h | h)
      · exact h.eq_of_length hlen
      · exact (h.eq_of_length hlen.symm).symm
    · intro h
      exact Or.inl (h ▸ List.suffix_refl _)
  · simp only [ne_eq, hlen, not_false_eq_true, if_true, Bool.false_eq_true, false_iff]
    exact fun h => hlen (congrArg List.length h)

theorem Domain.isSubdomain_true_iff (self other : Domain) :
    Domain.IsSubdomain self other = true ↔
      self.data_.length < other.data_.length ∧ self.data_ <:+ other.data_ := by
  unfold Domain.IsSubdomain
  by_cases hlen : self.data_.length ≥ other.data_.length
  · simp only [hlen, if_true, Bool.false_eq_true, false_iff, not_and]
    intro h
    omega
  · simp only [hlen, if_false, Domain.domainDataCompare_iff, List.reverse_prefix]
    constructor
    · rintro (h | h)
      · exact ⟨by omega, h⟩
      · have := h.length_le
        omega
    · intro h
      exact Or.inl h.2

/-! ## Lemmas used by the claims -/

/-- Reading never fails, and every domain it returns has at least one label. -/
theorem ReadDomains_eq (lines : List Str) :
    ReadDomains lines = some (lines.map (fun raw => (⟨raw.splitOn '.'⟩ : Domain))) := by
  unfold ReadDomains
  induction lines with
  | nil => rfl
  | cons l ls ih => simp only [List.mapM_cons, ih, Domain.ctor_eq]; rfl

theorem ReadDomains_data_ne_nil (lines : List Str) (F : List Domain)
    (h : ReadDomains lines = some F) : ∀ f ∈ F, f.data_ ≠ [] := by
  rw [ReadDomains_eq, Option.some.injEq] at h
  subst h
  intro f hf
  obtain ⟨raw, _, rfl⟩ := List.mem_map.mp hf
  exact splitOn_dot_ne_nil raw

/-- The merge sort is one of the outcomes `std::sort` may produce. -/
theorem DomainChecker.sortDomains_isSortResult (input : List Domain) :
    DomainChecker.IsSortResult input (DomainChecker.sortDomains input) := by
  refine ⟨List.mergeSort_perm _ _, ?_⟩
  have hs := @List.sorted_mergeSort Domain
    (fun lhs rhs : Domain => !DomainChecker.sortLess rhs lhs)
    (by
      intro a b c hab hbc
      simp only [DomainChecker.sortLess, Bool.not_eq_true', decide_eq_false_iff_not] at *
      omega)
    (by
      intro a b
      simp only [DomainChecker.sortLess, Bool.or_eq_true, Bool.not_eq_true',
        decide_eq_false_iff_not]
      omega)
    input
  exact hs.imp (fun h => by simpa using h)

/-- A query that is accepted stays accepted when more labels follow. -/
theorem DomainChecker.isForbiddenLoop_append (q : List Str) :
    ∀ (top : SubDomain) (r : List Str), DomainChecker.isForbiddenLoop top q = true →
      DomainChecker.isForbiddenLoop top (q ++ r) = true := by
  induction q with
  | nil => intro top r h; rw [DomainChecker.isForbiddenLoop] at h; cases h
  | cons l q ih =>
    intro top r h
    rw [List.cons_append, DomainChecker.isForbiddenLoop_cons]
    rw [DomainChecker.isForbiddenLoop_cons] at h
    cases hfind : SubDomainMap.find top.sub_domains_ l with
    | none => rw [hfind] at h; cases h
    | some v =>
      cases v with
      | none => rfl
      | some child =>
        rw [hfind] at h
        exact ih child r h

/-- The verdict of a constructed checker, for forbidden domains with at least
one label each and any outcome of the sort. -/
theorem DomainChecker.isForbidden_ctor (F sorted : List Domain) (c : Domain)
    (hne : ∀ f ∈ F, f.data_ ≠ []) (hperm : sorted.Perm F) :
    (DomainChecker.ctor sorted).IsForbidden c = true ↔ ∃ f ∈ F, f.data_ <:+ c.data_ := by
  rw [DomainChecker.IsForbidden, DomainChecker.ctor, Domain.GetSubDomains,
    DomainChecker.isForbidden_buildLoop sorted (fun d hd => hne d (hperm.mem_iff.1 hd))]
  constructor
  · rintro ⟨d, hd, hs⟩
    exact ⟨d, hperm.mem_iff.1 hd, hs⟩
  · rintro ⟨d, hd, hs⟩
    exact ⟨d, hperm.mem_iff.2 hd, hs⟩

/-! ## The claims -/

/-- C1: for every list `F` of forbidden domains and every candidate `c`, the
checker constructed from `F` (whatever order the sort leaves `F` in) reports
`c` as forbidden if and only if some `f` in `F` is a root-aligned prefix of
`c`: the labels of `c` end with all the labels of `f`, so `c` is `f` or `f`
with labels prepended. Every `Domain` object holds at least one label, which
is the hypothesis `hne` on the forbidden domains. -/
theorem isForbidden_iff_rootAligned_prefix (F sorted : List Domain) (c : Domain)
    (hne : ∀ f ∈ F, f.data_ ≠ []) (hsort : DomainChecker.IsSortResult F sorted) :
    (DomainChecker.ctor sorted).IsForbidden c = true ↔
      ∃ f ∈ F, ∃ p : List Str, c.data_ = p ++ f.data_ := by
  rw [DomainChecker.isForbidden_ctor F sorted c hne hsort.1]
  constructor
  · rintro ⟨f, hf, p, hp⟩
    exact ⟨f, hf, p, hp.symm⟩
  · rintro ⟨f, hf, p, hp⟩
    exact ⟨f, hf, p, hp.symm⟩

/-- Witness of C1: forbidden `ya.ru`, `maps.me`, `m.ya.ru`, `com`, sorted as
`com`, `maps.me`, `ya.ru`, `m.ya.ru`, and the candidate `moscow.m.ya.ru`. -/
theorem isForbidden_iff_rootAligned_prefix_witness :
    (DomainChecker.ctor
        [⟨["com".toList]⟩, ⟨["maps".toList, "me".toList]⟩, ⟨["ya".toList, "ru".toList]⟩,
          ⟨["m".toList, "ya".toList, "ru".toList]⟩]).IsForbidden
        ⟨["moscow".toList, "m".toList, "ya".toList, "ru".toList]⟩ = true ↔
      ∃ f ∈ ([⟨["ya".toList, "ru".toList]⟩, ⟨["maps".toList, "me".toList]⟩,
          ⟨["m".toList, "ya".toList, "ru".toList]⟩, ⟨["com".toList]⟩] : List Domain),
        ∃ p : List Str,
          (⟨["moscow".toList, "m".toList, "ya".toList, "ru".toList]⟩ : Domain).data_ =
            p ++ f.data_ :=
  isForbidden_iff_rootAligned_prefix _ _ _ (by decide) ⟨by decide, by decide⟩

/-- The verdicts of the end-to-end example as a decidable condition on the
candidate, for every outcome of the sort of the four forbidden domains. -/
theorem example_verdict (sorted : List Domain) (c : Domain)
    (hsort : DomainChecker.IsSortResult
      [⟨["ya".toList, "ru".toList]⟩, ⟨["maps".toList, "me".toList]⟩,
        ⟨["m".toList, "ya".toList, "ru".toList]⟩, ⟨["com".toList]⟩] sorted) :
    (DomainChecker.ctor sorted).IsForbidden c =
      decide (∃ f ∈ ([⟨["ya".toList, "ru".toList]⟩, ⟨["maps".toList, "me".toList]⟩,
        ⟨["m".toList, "ya".toList, "ru".toList]⟩, ⟨["com".toList]⟩] : List Domain),
          f.data_ <:+ c.data_) := by
  rw [Bool.eq_iff_iff, decide_eq_true_iff]
  exact DomainChecker.isForbidden_ctor _ sorted c (by decide) hsort.1

theorem example_forbidden_parsed :
    ReadDomains ["ya.ru".toList, "maps.me".toList, "m.ya.ru".toList, "com".toList] =
      some [⟨["ya".toList, "ru".toList]⟩, ⟨["maps".toList, "me".toList]⟩,
        ⟨["m".toList, "ya".toList, "ru".toList]⟩, ⟨["com".toList]⟩] := by
  simp only [ReadDomains, List.mapM_cons, List.mapM_nil, Domain.ctor_eq]
  rfl

theorem example_candidates_parsed :
    ReadDomains ["ya.ru".toList, "ya.com".toList, "m.maps.me".toList,
        "moscow.m.ya.ru".toList, "maps.com".toList] =
      some [⟨["ya".toList, "ru".toList]⟩, ⟨["ya".toList, "com".toList]⟩,
        ⟨["m".toList, "maps".toList, "me".toList]⟩,
        ⟨["moscow".toList, "m".toList, "ya".toList, "ru".toList]⟩,
        ⟨["maps".toList, "com".toList]⟩] := by
  simp only [ReadDomains, List.mapM_cons, List.mapM_nil, Domain.ctor_eq]
  rfl

/-- C2, as stated, fails: the raw strings of the example are parsed, a sort
outcome of the forbidden list exists, and for every sort outcome the answers
to the five candidates differ from true, false, true, true, true (and the
printed tokens from Bad, Good, Bad, Bad, Bad): the candidate `ya.com` ends
with the forbidden `com`. -/
theorem example_end_to_end_not_as_stated :
    ∃ forbidden candidates : List Domain,
      ReadDomains ["ya.ru".toList, "maps.me".toList, "m.ya.ru".toList, "com".toList] =
        some forbidden ∧
      ReadDomains ["ya.ru".toList, "ya.com".toList, "m.maps.me".toList,
        "moscow.m.ya.ru".toList, "maps.com".toList] = some candidates ∧
      DomainChecker.IsSortResult forbidden (DomainChecker.sortDomains forbidden) ∧
      ∀ sorted, DomainChecker.IsSortResult forbidden sorted →
        candidates.map (DomainChecker.ctor sorted).IsForbidden ≠
          [true, false, true, true, true] ∧
        candidates.map (verdict (DomainChecker.ctor sorted)) ≠
          ["Bad", "Good", "Bad", "Bad", "Bad"] := by
  refine ⟨_, _, example_forbidden_parsed, example_candidates_parsed,
    DomainChecker.sortDomains_isSortResult _, ?_⟩
  intro sorted hsort
  simp only [List.map, verdict, example_verdict sorted _ hsort]
  decide

/-- C2, amended: the raw strings `ya.ru`, `maps.me`, `m.ya.ru`, `com` and
`ya.ru`, `ya.com`, `m.maps.me`, `moscow.m.ya.ru`, `maps.com` are all parsed by
the `Domain` constructor; a sort outcome of the forbidden list exists, and for
every sort outcome the checker answers the candidates, in order, true, true,
true, true, true, printed as Bad, Bad, Bad, Bad, Bad. -/
theorem example_end_to_end :
    ∃ forbidden candidates : List Domain,
      ReadDomains ["ya.ru".toList, "maps.me".toList, "m.ya.ru".toList, "com".toList] =
        some forbidden ∧
      ReadDomains ["ya.ru".toList, "ya.com".toList, "m.maps.me".toList,
        "moscow.m.ya.ru".toList, "maps.com".toList] = some candidates ∧
      DomainChecker.IsSortResult forbidden (DomainChecker.sortDomains forbidden) ∧
      ∀ sorted, DomainChecker.IsSortResult forbidden sorted →
        candidates.map (DomainChecker.ctor sorted).IsForbidden =
          [true, true, true, true, true] ∧
        candidates.map (verdict (DomainChecker.ctor sorted)) =
          ["Bad", "Bad", "Bad", "Bad", "Bad"] := by
  refine ⟨_, _, example_forbidden_parsed, example_candidates_parsed,
    DomainChecker.sortDomains_isSortResult _, ?_⟩
  intro sorted hsort
  simp only [List.map, verdict, example_verdict sorted _ hsort]
  decide

/-- C3: for every raw string the `Domain` constructor returns a domain whose
labels contain no dot and, joined in order with a dot between consecutive
labels, give back the raw string; the labels are the split of the raw string
at every dot. -/
theorem ctor_labels_are_split (raw : Str) :
    ∃ d : Domain, Domain.ctor raw = some d ∧
      (∀ label ∈ d.GetSubDomains, '.' ∉ label) ∧
      List.intercalate ['.'] d.GetSubDomains = raw ∧
      d.GetSubDomains = List.splitOn '.' raw :=
  ⟨⟨raw.splitOn '.'⟩, Domain.ctor_eq raw, splitOn_dot_not_mem raw,
    List.intercalate_splitOn raw '.', rfl⟩

/-- C4: for every raw string the `Domain` constructor returns a domain with at
least one label; when the raw string is not empty, does not start with a dot,
does not end with a dot and has no two dots in a row, every label is
non-empty. -/
theorem ctor_labels_nonempty (raw : Str) :
    ∃ d : Domain, Domain.ctor raw = some d ∧ 1 ≤ d.GetSubDomains.length ∧
      (raw ≠ [] → raw.head? ≠ some '.' → raw.getLast? ≠ some '.' →
        ¬ ['.', '.'] <:+: raw → ∀ label ∈ d.GetSubDomains, label ≠ []) := by
  refine ⟨⟨raw.splitOn '.'⟩, Domain.ctor_eq raw, ?_, ?_⟩
  · exact List.length_pos.mpr (splitOn_dot_ne_nil raw)
  · intro h1 h2 h3 h4 label hl hnil
    subst hnil
    simp only [Domain.GetSubDomains] at hl
    cases hS : raw.splitOn '.' with
    | nil => exact splitOn_dot_ne_nil raw hS
    | cons hd tl =>
      rw [hS] at hl
      rcases List.mem_cons.mp hl with h | h
      · rcases splitOn_dot_head_nil raw tl (by rw [hS, ← h]) with h0 | h0
        · exact h1 h0
        · exact h2 h0
      · rcases splitOn_dot_tail_nil raw hd tl hS h with h0 | h0
        · exact h3 h0
        · exact h4 h0

/-- Witness of C4: the well-formed raw string `m.ya.ru`. -/
theorem ctor_labels_nonempty_witness :
    ∃ d : Domain, Domain.ctor "m.ya.ru".toList = some d ∧ 1 ≤ d.GetSubDomains.length ∧
      ∀ label ∈ d.GetSubDomains, label ≠ [] := by
  obtain ⟨d, hd, hlen, hall⟩ := ctor_labels_nonempty "m.ya.ru".toList
  exact ⟨d, hd, hlen, hall (by decide) (by decide) (by decide) (by decide)⟩

/-- C5: `A == B` is true if and only if `A` and `B` have the same number of
labels and the same label at every position, that is, equal label lists; two
domains with different numbers of labels are never equal. -/
theorem eq_iff_same_labels (A B : Domain) :
    (Domain.eq A B = true ↔
      A.data_.length = B.data_.length ∧ ∀ i : Nat, A.data_[i]? = B.data_[i]?) ∧
    (Domain.eq A B = true ↔ A.data_ = B.data_) ∧
    (A.data_.length ≠ B.data_.length → Domain.eq A B = false) := by
  refine ⟨?_, Domain.eq_true_iff A B, ?_⟩
  · rw [Domain.eq_true_iff]
    constructor
    · intro h
      rw [h]
      exact ⟨rfl, fun _ => rfl⟩
    · intro h
      exact List.ext_getElem? h.2
  · intro hlen
    cases h : Domain.eq A B with
    | false => rfl
    | true => exact absurd (congrArg List.length ((Domain.eq_true_iff A B).1 h)) hlen

/-- Witness of C5: `ya.ru` and `m.ya.ru` have different numbers of labels. -/
theorem eq_iff_same_labels_witness :
    Domain.eq ⟨["ya".toList, "ru".toList]⟩ ⟨["m".toList, "ya".toList, "ru".toList]⟩ = false :=
  (eq_iff_same_labels ⟨["ya".toList, "ru".toList]⟩
    ⟨["m".toList, "ya".toList, "ru".toList]⟩).2.2 (by decide)

/-- C6, as stated, fails: for `self = ru` and `other = ya.ru` the code answers
true, although the two labels of `other` are not matched by `self`, whose label
sequence is shorter (`other` is not a root-aligned prefix of `self`). -/
theorem isSubdomain_not_as_stated :
    ¬ (Domain.IsSubdomain ⟨["ru".toList]⟩ ⟨["ya".toList, "ru".toList]⟩ = true ↔
      (⟨["ru".toList]⟩ : Domain).data_.length <
          (⟨["ya".toList, "ru".toList]⟩ : Domain).data_.length ∧
        (⟨["ya".toList, "ru".toList]⟩ : Domain).data_ <:+
          (⟨["ru".toList]⟩ : Domain).data_) := by
  decide

/-- C6, amended: `self.IsSubdomain(other)` is true if and only if `self` has
strictly fewer labels than `other` and every label of `self`, read from its
tail toward its head, matches the corresponding label of `other`, for exactly
`len(self)` positions: the whole label sequence of `self` is a root-aligned
prefix of the one of `other`. -/
theorem isSubdomain_iff (self other : Domain) :
    Domain.IsSubdomain self other = true ↔
      self.data_.length < other.data_.length ∧
        ∃ p : List Str, other.data_ = p ++ self.data_ := by
  rw [Domain.isSubdomain_true_iff]
  constructor
  · rintro ⟨hlen, p, hp⟩
    exact ⟨hlen, p, hp.symm⟩
  · rintro ⟨hlen, p, hp⟩
    exact ⟨hlen, p, hp.symm⟩

/-- C7, as stated, fails: `A = m.ya.ru` is `B = ya.ru` with one label
prepended, yet `A.IsSubdomain(B)` is false and `B.IsSubdomain(A)` is true. -/
theorem isSubdomain_extension_not_as_stated :
    ¬ (∀ (A B : Domain) (p : List Str), p ≠ [] → A.data_ = p ++ B.data_ →
      Domain.IsSubdomain A B = true ∧ Domain.IsSubdomain B A = false) := by
  intro h
  have h1 := (h ⟨["m".toList, "ya".toList, "ru".toList]⟩ ⟨["ya".toList, "ru".toList]⟩
    ["m".toList] (by decide) (by decide)).1
  revert h1
  decide

/-- C7, amended: when the labels of `A` are the labels of `B` with one or more
labels prepended, `A.IsSubdomain(B)` is false and `B.IsSubdomain(A)` is true. -/
theorem isSubdomain_extension (A B : Domain) (p : List Str) (hp : p ≠ [])
    (hA : A.data_ = p ++ B.data_) :
    Domain.IsSubdomain A B = false ∧ Domain.IsSubdomain B A = true := by
  have hlen : B.data_.length < A.data_.length := by
    rw [hA, List.length_append]
    have := List.length_pos.mpr hp
    omega
  constructor
  · cases h : Domain.IsSubdomain A B with
    | false => rfl
    | true =>
      have := ((Domain.isSubdomain_true_iff A B).1 h).1
      omega
  · exact (Domain.isSubdomain_true_iff B A).2 ⟨hlen, p, hA.symm⟩

/-- Witness of C7 amended: `A = m.ya.ru` and `B = ya.ru`. -/
theorem isSubdomain_extension_witness :
    Domain.IsSubdomain ⟨["m".toList, "ya".toList, "ru".toList]⟩
        ⟨["ya".toList, "ru".toList]⟩ = false ∧
      Domain.IsSubdomain ⟨["ya".toList, "ru".toList]⟩
        ⟨["m".toList, "ya".toList, "ru".toList]⟩ = true :=
  isSubdomain_extension ⟨["m".toList, "ya".toList, "ru".toList]⟩ ⟨["ya".toList, "ru".toList]⟩
    ["m".toList] (by decide) (by decide)

/-- C8: for every forbidden list `F` and every domain `f` that occurs in `F`,
the checker constructed from `F` (whatever order the sort leaves `F` in)
reports `f` as forbidden. Every `Domain` object holds at least one label,
which is the hypothesis `hne` on the forbidden domains. -/
theorem isForbidden_of_mem (F sorted : List Domain) (f : Domain)
    (hne : ∀ g ∈ F, g.data_ ≠ []) (hsort : DomainChecker.IsSortResult F sorted)
    (hf : f ∈ F) :
    (DomainChecker.ctor sorted).IsForbidden f = true :=
  (DomainChecker.isForbidden_ctor F sorted f hne hsort.1).2 ⟨f, hf, List.suffix_refl _⟩

/-- Witness of C8: forbidden `m.ya.ru`, `ya.ru`, `m.ya.ru`, sorted as `ya.ru`,
`m.ya.ru`, `m.ya.ru`, and the entry `m.ya.ru`, whose own insertion is pruned. -/
theorem isForbidden_of_mem_witness :
    (DomainChecker.ctor
        [⟨["ya".toList, "ru".toList]⟩, ⟨["m".toList, "ya".toList, "ru".toList]⟩,
          ⟨["m".toList, "ya".toList, "ru".toList]⟩]).IsForbidden
      ⟨["m".toList, "ya".toList, "ru".toList]⟩ = true :=
  isForbidden_of_mem
    [⟨["m".toList, "ya".toList, "ru".toList]⟩, ⟨["ya".toList, "ru".toList]⟩,
      ⟨["m".toList, "ya".toList, "ru".toList]⟩]
    _ _ (by decide) ⟨by decide, by decide⟩ (by decide)

/-- C9: forbiddenness is closed under taking subdomains. For every checker, so
for the one constructed from any forbidden list, every candidate `c` and every
list `p` of extra labels: if `c` is reported as forbidden, then so is the
domain whose labels are `p` followed by the labels of `c`. -/
theorem isForbidden_prepend (checker : DomainChecker) (c : Domain) (p : List Str)
    (h : checker.IsForbidden c = true) :
    checker.IsForbidden ⟨p ++ c.data_⟩ = true := by
  unfold DomainChecker.IsForbidden Domain.GetSubDomains at *
  rw [List.reverse_append]
  exact DomainChecker.isForbiddenLoop_append _ _ _ h

/-- Witness of C9: the checker constructed from the forbidden list `com`, the
candidate `google.com` and the extra label `mail`. -/
theorem isForbidden_prepend_witness :
    (DomainChecker.ctor [⟨["com".toList]⟩]).IsForbidden
      ⟨["mail".toList] ++ ["google".toList, "com".toList]⟩ = true :=
  isForbidden_prepend (DomainChecker.ctor [⟨["com".toList]⟩])
    ⟨["google".toList, "com".toList]⟩ ["mail".toList] (by decide)

/-- C10: for every forbidden list `F` and every candidate `c` that has strictly
fewer labels than every entry of `F`, the checker constructed from `F`
(whatever order the sort leaves `F` in) reports `c` as not forbidden. -/
theorem isForbidden_false_of_shorter (F sorted : List Domain) (c : Domain)
    (hsort : DomainChecker.IsSortResult F sorted)
    (hshort : ∀ f ∈ F, c.data_.length < f.data_.length) :
    (DomainChecker.ctor sorted).IsForbidden c = false := by
  have hne : ∀ f ∈ F, f.data_ ≠ [] := by
    intro f hf hnil
    have := hshort f hf
    rw [hnil] at this
    exact Nat.not_lt_zero _ this
  cases h : (DomainChecker.ctor sorted).IsForbidden c with
  | false => rfl
  | true =>
    obtain ⟨f, hf, hsuf⟩ := (DomainChecker.isForbidden_ctor F sorted c hne hsort.1).1 h
    have h1 := hsuf.length_le
    have h2 := hshort f hf
    omega

/-- Witness of C10: forbidden `maps.google.com` and the candidate `google.com`. -/
theorem isForbidden_false_of_shorter_witness :
    (DomainChecker.ctor [⟨["maps".toList, "google".toList, "com".toList]⟩]).IsForbidden
      ⟨["google".toList, "com".toList]⟩ = false :=
  isForbidden_false_of_shorter [⟨["maps".toList, "google".toList, "com".toList]⟩] _ _
    ⟨by decide, by decide⟩ (by decide)

/-! ## Lemmas for domains in any number and order -/

/-- The effect of the outer loop on later queries, for any list of domains:
a domain without labels is skipped by the inner loop. -/
theorem DomainChecker.isForbiddenLoop_foldl_any (ds : List Domain) :
    ∀ (top : SubDomain) (q : List Str),
      (DomainChecker.isForbiddenLoop (ds.foldl DomainChecker.insertDomain top) q = true ↔
        DomainChecker.isForbiddenLoop top q = true ∨
          ∃ d ∈ ds, d.data_ ≠ [] ∧ d.data_.reverse <+: q) := by
  induction ds with
  | nil => intro top q; simp
  | cons d ds ih =>
    intro top q
    rw [List.foldl_cons, ih]
    by_cases hd : d.data_ = []
    · have hins : DomainChecker.insertDomain top d = top := by
        simp [DomainChecker.insertDomain, Domain.GetSubDomains, hd, DomainChecker.insertLabels]
      rw [hins]
      simp [hd]
    · have hrev : d.data_.reverse ≠ [] := by simpa using hd
      rw [DomainChecker.insertDomain, Domain.GetSubDomains,
        DomainChecker.isForbiddenLoop_insertLabels _ _ _ hrev]
      simp only [List.mem_cons, exists_eq_or_imp, or_assoc, hd, ne_eq, not_false_eq_true,
        true_and]

/-- The verdict of a constructed checker for any forbidden list and any
rearrangement of it. -/
theorem DomainChecker.isForbidden_ctor_any (F sorted : List Domain) (c : Domain)
    (hperm : sorted.Perm F) :
    (DomainChecker.ctor sorted).IsForbidden c = true ↔
      ∃ f ∈ F, f.data_ ≠ [] ∧ f.data_ <:+ c.data_ := by
  rw [DomainChecker.IsForbidden, DomainChecker.ctor, Domain.GetSubDomains,
    DomainChecker.buildLoop, DomainChecker.isForbiddenLoop_foldl_any,
    DomainChecker.isForbiddenLoop_empty]
  simp only [Bool.false_eq_true, false_or, List.reverse_prefix]
  constructor
  · rintro ⟨d, hd, h⟩
    exact ⟨d, hperm.mem_iff.1 hd, h⟩
  · rintro ⟨d, hd, h⟩
    exact ⟨d, hperm.mem_iff.2 hd, h⟩

/-- Two checkers whose forbidden lists have the same members give the same
verdicts. -/
theorem DomainChecker.isForbidden_congr (F G sortedF sortedG : List Domain) (c : Domain)
    (hF : sortedF.Perm F) (hG : sortedG.Perm G) (hmem : ∀ d, d ∈ F ↔ d ∈ G) :
    (DomainChecker.ctor sortedF).IsForbidden c = (DomainChecker.ctor sortedG).IsForbidden c := by
  rw [Bool.eq_iff_iff, DomainChecker.isForbidden_ctor_any F sortedF c hF,
    DomainChecker.isForbidden_ctor_any G sortedG c hG]
  constructor
  · rintro ⟨d, hd, h⟩
    exact ⟨d, (hmem d).1 hd, h⟩
  · rintro ⟨d, hd, h⟩
    exact ⟨d, (hmem d).2 hd, h⟩

/-! ## Lemmas about the termini of the trie -/

theorem SubDomainMap.assign_of_find (m : SubDomainMap) (key : Str) (v : Option SubDomain)
    (h : SubDomainMap.find m key = some v) : SubDomainMap.assign m key v = m := by
  induction m with
  | nil => simp [SubDomainMap.find] at h
  | cons e rest ih =>
    obtain ⟨k, w⟩ := e
    by_cases hk : k = key
    · simp only [SubDomainMap.find, hk, if_true, Option.some.injEq] at h
      simp [SubDomainMap.assign, hk, h]
    · simp only [SubDomainMap.find, hk, if_false] at h
      simp [SubDomainMap.assign, hk, ih h]

theorem SubDomain.mk_sub_domains_ (top : SubDomain) : SubDomain.mk top.sub_domains_ = top := by
  cases top; rfl

theorem SubDomain.isTerminus_nil (top : SubDomain) : top.isTerminus [] = false := by
  rw [SubDomain.isTerminus]

theorem SubDomain.isTerminus_cons (top : SubDomain) (l : Str) (rest : List Str) :
    top.isTerminus (l :: rest) =
      match SubDomainMap.find top.sub_domains_ l with
      | some none => decide (rest = [])
      | some (some child) => child.isTerminus rest
      | none => false := by
  rw [SubDomain.isTerminus]

theorem SubDomain.isTerminus_empty (q : List Str) :
    (SubDomain.mk []).isTerminus q = false := by
  cases q with
  | nil => exact SubDomain.isTerminus_nil _
  | cons l q => rw [SubDomain.isTerminus_cons]; rfl

/-- The inner loop changes nothing when a prefix of the labels it visits is a
terminus of the node it starts at. -/
theorem DomainChecker.insertLabels_of_isTerminus_prefix (p : List Str) :
    ∀ (top : SubDomain) (labels : List Str), top.isTerminus p = true → p <+: labels →
      DomainChecker.insertLabels top labels = top := by
  induction p with
  | nil => intro top labels h; rw [SubDomain.isTerminus_nil] at h; cases h
  | cons l p ih =>
    intro top labels h hpre
    cases labels with
    | nil => simp at hpre
    | cons l2 rest =>
      obtain ⟨hl, hrest⟩ := List.cons_prefix_cons.mp hpre
      subst hl
      rw [SubDomain.isTerminus_cons] at h
      cases hfind : SubDomainMap.find top.sub_domains_ l with
      | none => rw [hfind] at h; cases h
      | some v =>
        cases v with
        | none => exact DomainChecker.insertLabels_of_terminus top l rest hfind
        | some child =>
          rw [hfind] at h
          have h : child.isTerminus p = true := h
          have hp : p ≠ [] := by
            rintro rfl
            rw [SubDomain.isTerminus_nil] at h
            cases h
          have hne : rest ≠ [] := by
            rintro rfl
            exact hp (List.prefix_nil.mp hrest)
          rw [DomainChecker.insertLabels_node top child l rest hfind hne, ih child rest h hrest,
            SubDomainMap.assign_of_find _ _ _ hfind, SubDomain.mk_sub_domains_]

/-- A query is accepted exactly when one of its prefixes is a terminus. -/
theorem DomainChecker.isForbiddenLoop_iff_isTerminus (q : List Str) :
    ∀ top : SubDomain, DomainChecker.isForbiddenLoop top q = true ↔
      ∃ t, t <+: q ∧ top.isTerminus t = true := by
  induction q with
  | nil =>
    intro top
    rw [DomainChecker.isForbiddenLoop]
    constructor
    · intro h; cases h
    · rintro ⟨t, ht, h⟩
      rw [List.prefix_nil.mp ht, SubDomain.isTerminus_nil] at h
      cases h
  | cons l q ih =>
    intro top
    rw [DomainChecker.isForbiddenLoop_cons]
    constructor
    · intro h
      cases hfind : SubDomainMap.find top.sub_domains_ l with
      | none => rw [hfind] at h; cases h
      | some v =>
        cases v with
        | none =>
          refine ⟨[l], ?_, ?_⟩
          · simp [List.cons_prefix_cons]
          · rw [SubDomain.isTerminus_cons, hfind]; rfl
        | some child =>
          rw [hfind] at h
          obtain ⟨t, ht, hterm⟩ := (ih child).1 h
          refine ⟨l :: t, List.cons_prefix_cons.mpr ⟨rfl, ht⟩, ?_⟩
          rw [SubDomain.isTerminus_cons, hfind]
          exact hterm
    · rintro ⟨t, ht, hterm⟩
      cases t with
      | nil => rw [SubDomain.isTerminus_nil] at hterm; cases hterm
      | cons l2 t =>
        obtain ⟨hl, ht2⟩ := List.cons_prefix_cons.mp ht
        subst hl
        rw [SubDomain.isTerminus_cons] at hterm
        cases hfind : SubDomainMap.find top.sub_domains_ l2 with
        | none => rw [hfind] at hterm; cases hterm
        | some v =>
          cases v with
          | none => rfl
          | some child =>
            rw [hfind] at hterm
            exact (ih child).2 ⟨t, ht2, hterm⟩

/-- An insertion of labels that the trie already accepts changes nothing. -/
theorem DomainChecker.insertLabels_of_isForbiddenLoop (top : SubDomain) (p : List Str)
    (h : DomainChecker.isForbiddenLoop top p = true) :
    DomainChecker.insertLabels top p = top := by
  obtain ⟨t, ht, hterm⟩ := (DomainChecker.isForbiddenLoop_iff_isTerminus p top).1 h
  exact DomainChecker.insertLabels_of_isTerminus_prefix t top p hterm ht

/-- The termini after the insertion of a non-empty label path `p` that the
trie does not accept yet: `p` itself, and the old termini that do not start
with `p`. -/
theorem DomainChecker.isTerminus_insertLabels (p : List Str) :
    ∀ (top : SubDomain) (q : List Str), p ≠ [] →
      DomainChecker.isForbiddenLoop top p = false →
      ((DomainChecker.insertLabels top p).isTerminus q = true ↔
        q = p ∨ (top.isTerminus q = true ∧ ¬ p <+: q)) := by
  induction p with
  | nil => intro top q h; exact absurd rfl h
  | cons l rest ih =>
    intro top q _ hacc
    rw [DomainChecker.isForbiddenLoop_cons] at hacc
    -- the node after the insertion, and the termini below its entry for `l`
    have hshape : ∃ v, DomainChecker.insertLabels top (l :: rest) =
          SubDomain.mk (SubDomainMap.assign top.sub_domains_ l v) ∧
        ∀ q2, ((match v with
                | none => decide (q2 = [])
                | some child => child.isTerminus q2) = true ↔
          q2 = rest ∨ (top.isTerminus (l :: q2) = true ∧ ¬ rest <+: q2)) := by
      have hnot : SubDomainMap.find top.sub_domains_ l ≠ some none := by
        intro h
        rw [h] at hacc
        cases hacc
      by_cases hrest : rest = []
      · subst hrest
        refine ⟨none, DomainChecker.insertLabels_last top l hnot, fun q2 => ?_⟩
        simp
      · cases hfind : SubDomainMap.find top.sub_domains_ l with
        | none =>
          refine ⟨_, DomainChecker.insertLabels_new top l rest hfind hrest, fun q2 => ?_⟩
          simp only [ih _ q2 hrest (DomainChecker.isForbiddenLoop_empty rest),
            SubDomain.isTerminus_empty, SubDomain.isTerminus_cons, hfind]
        | some w =>
          cases w with
          | none => exact absurd hfind hnot
          | some node =>
            rw [hfind] at hacc
            refine ⟨_, DomainChecker.insertLabels_node top node l rest hfind hrest,
              fun q2 => ?_⟩
            simp only [ih _ q2 hrest hacc, SubDomain.isTerminus_cons, hfind]
    obtain ⟨v, heq, hv⟩ := hshape
    rw [heq]
    cases q with
    | nil => simp [SubDomain.isTerminus_nil]
    | cons l2 q2 =>
      rw [SubDomain.isTerminus_cons, SubDomain.sub_domains_mk, SubDomainMap.find_assign]
      by_cases hl : l = l2
      · subst hl
        have hq := hv q2
        cases v <;> simpa [List.cons_prefix_cons] using hq
      · have hl2 : ¬ l2 = l := fun e => hl e.symm
        simp only [hl, if_false, List.cons.injEq, hl2, false_and, false_or,
          List.cons_prefix_cons, not_false_eq_true, and_true]
        rw [SubDomain.isTerminus_cons]

/-- The termini of the trie built from domains with at least one label each,
inserted in any order: the label paths of the inserted domains of which no
other inserted label path is a proper prefix. -/
theorem DomainChecker.isTerminus_buildLoop (ds : List Domain) :
    (∀ d ∈ ds, d.data_ ≠ []) → ∀ q : List Str,
      ((DomainChecker.buildLoop ds).isTerminus q = true ↔
        (∃ d ∈ ds, d.data_.reverse = q) ∧
          ∀ g ∈ ds, g.data_.reverse <+: q → g.data_.reverse = q) := by
  induction ds using List.reverseRecOn with
  | nil =>
    intro _ q
    simp [DomainChecker.buildLoop, SubDomain.isTerminus_empty]
  | append_singleton ds d ih =>
    intro hne q
    have hne1 : ∀ e ∈ ds, e.data_ ≠ [] := fun e he => hne e (List.mem_append_left _ he)
    have hd : d.data_.reverse ≠ [] := by
      simpa using hne d (List.mem_append_right _ (List.mem_singleton_self d))
    have ih1 := ih hne1
    have hacc : ∀ r, DomainChecker.isForbiddenLoop (DomainChecker.buildLoop ds) r = true ↔
        ∃ e ∈ ds, e.data_.reverse <+: r := by
      intro r
      rw [DomainChecker.buildLoop, DomainChecker.isForbiddenLoop_foldl ds hne1,
        DomainChecker.isForbiddenLoop_empty]
      simp
    have hstep : DomainChecker.buildLoop (ds ++ [d]) =
        DomainChecker.insertLabels (DomainChecker.buildLoop ds) d.data_.reverse := by
      simp [DomainChecker.buildLoop, List.foldl_append, DomainChecker.insertDomain,
        Domain.GetSubDomains]
    rw [hstep]
    cases hf : DomainChecker.isForbiddenLoop (DomainChecker.buildLoop ds) d.data_.reverse with
    | true =>
      obtain ⟨e, he, hpre⟩ := (hacc _).1 hf
      rw [DomainChecker.insertLabels_of_isForbiddenLoop _ _ hf, ih1 q]
      constructor
      · rintro ⟨⟨x, hx, hxq⟩, hmin⟩
        refine ⟨⟨x, List.mem_append_left _ hx, hxq⟩, ?_⟩
        intro g hg hgq
        rcases List.mem_append.mp hg with hg1 | hg1
        · exact hmin g hg1 hgq
        · rw [List.mem_singleton.mp hg1] at hgq ⊢
          have heq : e.data_.reverse = q := hmin e he (hpre.trans hgq)
          rw [← heq] at hgq ⊢
          exact List.IsPrefix.eq_of_length hgq
            (Nat.le_antisymm hgq.length_le hpre.length_le)
      · rintro ⟨⟨x, hx, hxq⟩, hmin⟩
        refine ⟨?_, fun g hg => hmin g (List.mem_append_left _ hg)⟩
        rcases List.mem_append.mp hx with hx1 | hx1
        · exact ⟨x, hx1, hxq⟩
        · rw [List.mem_singleton.mp hx1] at hxq
          refine ⟨e, he, ?_⟩
          rw [← hxq]
          exact hmin e (List.mem_append_left _ he) (hxq ▸ hpre) |>.trans hxq.symm
    | false =>
      have hno : ∀ e ∈ ds, ¬ e.data_.reverse <+: d.data_.reverse := by
        intro e he hpre
        have := (hacc _).2 ⟨e, he, hpre⟩
        rw [hf] at this
        cases this
      rw [DomainChecker.isTerminus_insertLabels _ _ q hd hf, ih1 q]
      constructor
      · rintro (hq | ⟨⟨⟨x, hx, hxq⟩, hmin⟩, hnp⟩)
        · subst hq
          refine ⟨⟨d, List.mem_append_right _ (List.mem_singleton_self d), rfl⟩, ?_⟩
          intro g hg hgq
          rcases List.mem_append.mp hg with hg1 | hg1
          · exact absurd hgq (hno g hg1)
          · rw [List.mem_singleton.mp hg1]
        · refine ⟨⟨x, List.mem_append_left _ hx, hxq⟩, ?_⟩
          intro g hg hgq
          rcases List.mem_append.mp hg with hg1 | hg1
          · exact hmin g hg1 hgq
          · rw [List.mem_singleton.mp hg1] at hgq
            exact absurd hgq hnp
      · rintro ⟨⟨x, hx, hxq⟩, hmin⟩
        by_cases hq : q = d.data_.reverse
        · exact Or.inl hq
        · right
          have hdmem : d ∈ ds ++ [d] := List.mem_append_right _ (List.mem_singleton_self d)
          refine ⟨⟨?_, fun g hg => hmin g (List.mem_append_left _ hg)⟩, ?_⟩
          · rcases List.mem_append.mp hx with hx1 | hx1
            · exact ⟨x, hx1, hxq⟩
            · rw [List.mem_singleton.mp hx1] at hxq
              exact absurd hxq.symm hq
          · intro hpre
            exact hq (hmin d hdmem hpre).symm

/-! ## Lemmas about the subtrees of the trie and the calls of `reset` -/

theorem SubDomain.isInner_cons (top : SubDomain) (l : Str) (rest : List Str) :
    top.isInner (l :: rest) =
      match SubDomainMap.find top.sub_domains_ l with
      | some (some child) => decide (rest = []) || child.isInner rest
      | _ => false := by
  rw [SubDomain.isInner]

theorem SubDomain.isInner_empty (q : List Str) : (SubDomain.mk []).isInner q = false := by
  cases q with
  | nil => rw [SubDomain.isInner]
  | cons l q => rw [SubDomain.isInner_cons]; rfl

/-- A call of `reset` on a non-null pointer happens only when the inserted
labels lead to a subtree. -/
theorem DomainChecker.isInner_of_mem_resetChildren (p : List Str) :
    ∀ (top : SubDomain) (child : Option SubDomain),
      child ∈ DomainChecker.resetChildren top p → child ≠ none → top.isInner p = true := by
  induction p with
  | nil => intro top child h; simp [DomainChecker.resetChildren] at h
  | cons l rest ih =>
    intro top child h hsome
    rw [SubDomain.isInner_cons]
    rw [DomainChecker.resetChildren] at h
    cases hfind : SubDomainMap.find top.sub_domains_ l with
    | none =>
      simp only [hfind, Option.getD_none] at h
      by_cases hrest : rest = []
      · simp only [hrest, ne_eq, not_true_eq_false, if_false, List.mem_singleton] at h
        exact absurd h hsome
      · simp only [hrest, ne_eq, not_false_eq_true, if_true] at h
        have := ih _ child h hsome
        rw [SubDomain.isInner_empty] at this
        cases this
    | some v =>
      cases v with
      | none => simp [hfind] at h
      | some node =>
        simp only [hfind, Option.getD_some] at h
        by_cases hrest : rest = []
        · simp [hrest]
        · simp only [hrest, ne_eq, not_false_eq_true, if_true] at h
          simp [ih _ child h hsome]

/-- The subtrees after an insertion: the old ones, and those at the proper
prefixes of the inserted labels. -/
theorem DomainChecker.isInner_insertLabels (p : List Str) :
    ∀ (top : SubDomain) (q : List Str),
      (DomainChecker.insertLabels top p).isInner q = true →
        top.isInner q = true ∨ q.length < p.length := by
  induction p with
  | nil => intro top q h; exact Or.inl (by simpa [DomainChecker.insertLabels] using h)
  | cons l rest ih =>
    intro top q h
    cases q with
    | nil => rw [SubDomain.isInner] at h; cases h
    | cons l2 q2 =>
      cases hfind : SubDomainMap.find top.sub_domains_ l with
      | some v =>
        cases v with
        | none =>
          rw [DomainChecker.insertLabels_of_terminus top l rest hfind] at h
          exact Or.inl h
        | some node =>
          by_cases hrest : rest = []
          · subst hrest
            rw [DomainChecker.insertLabels_last top l (by simp [hfind]), SubDomain.isInner_cons,
              SubDomain.sub_domains_mk, SubDomainMap.find_assign] at h
            by_cases hl : l = l2
            · simp [hl] at h
            · left
              rw [SubDomain.isInner_cons]
              simpa [hl] using h
          · rw [DomainChecker.insertLabels_node top node l rest hfind hrest,
              SubDomain.isInner_cons, SubDomain.sub_domains_mk, SubDomainMap.find_assign] at h
            by_cases hl : l = l2
            · subst hl
              simp only [if_true, Bool.or_eq_true, decide_eq_true_eq] at h
              rcases h with h | h
              · right
                subst h
                have := List.length_pos.mpr hrest
                simp only [List.length_cons, List.length_nil]
                omega
              · rcases ih node q2 h with h2 | h2
                · left
                  rw [SubDomain.isInner_cons, hfind]
                  simp [h2]
                · right
                  simp only [List.length_cons]
                  omega
            · left
              rw [SubDomain.isInner_cons]
              simpa [hl] using h
      | none =>
        by_cases hrest : rest = []
        · subst hrest
          rw [DomainChecker.insertLabels_last top l (by simp [hfind]), SubDomain.isInner_cons,
            SubDomain.sub_domains_mk, SubDomainMap.find_assign] at h
          by_cases hl : l = l2
          · simp [hl] at h
          · left
            rw [SubDomain.isInner_cons]
            simpa [hl] using h
        · rw [DomainChecker.insertLabels_new top l rest hfind hrest,
            SubDomain.isInner_cons, SubDomain.sub_domains_mk, SubDomainMap.find_assign] at h
          by_cases hl : l = l2
          · subst hl
            simp only [if_true, Bool.or_eq_true, decide_eq_true_eq] at h
            rcases h with h | h
            · right
              subst h
              have := List.length_pos.mpr hrest
              simp only [List.length_cons, List.length_nil]
              omega
            · rcases ih _ q2 h with h2 | h2
              · rw [SubDomain.isInner_empty] at h2
                cases h2
              · right
                simp only [List.length_cons]
                omega
          · left
            rw [SubDomain.isInner_cons]
            simpa [hl] using h

/-- While the domains come in non-decreasing order of their label counts and
every subtree of the current trie lies at a path shorter than all of them,
every call of `reset` finds a null pointer. -/
theorem DomainChecker.buildResets_eq_none (ds : List Domain) :
    ∀ top : SubDomain,
      ds.Pairwise (fun earlier later => DomainChecker.sortLess later earlier = false) →
      (∀ q, top.isInner q = true → ∀ d ∈ ds, q.length < d.data_.length) →
      ∀ child ∈ DomainChecker.buildResets top ds, child = none := by
  induction ds with
  | nil => intro top _ _ child h; simp [DomainChecker.buildResets] at h
  | cons d rest ih =>
    intro top hsorted hinv child h
    obtain ⟨hd, hrest⟩ := List.pairwise_cons.mp hsorted
    rw [DomainChecker.buildResets, List.mem_append] at h
    rcases h with h | h
    · by_contra hsome
      have hin := DomainChecker.isInner_of_mem_resetChildren _ top child h hsome
      have := hinv _ hin d (List.mem_cons_self _ _)
      simp [Domain.GetSubDomains] at this
    · refine ih (DomainChecker.insertDomain top d) hrest ?_ child h
      intro q hq e he
      rcases DomainChecker.isInner_insertLabels _ top q hq with h1 | h1
      · exact hinv q h1 e (List.mem_cons_of_mem _ he)
      · have hle := hd e he
        simp only [DomainChecker.sortLess, Domain.GetSubDomains, decide_eq_false_iff_not,
          List.length_reverse] at hle h1
        omega

/-! ## The claims on duplicates, order, termini and `reset` -/

/-- C11: idempotence under duplicates. For every forbidden list `F`, every
list `D` all of whose elements occur in `F`, and every candidate `c`, the
checker constructed from `F` together with `D` gives the same answer for `c`
as the checker constructed from `F` alone, whatever order the sort leaves
either list in. -/
theorem isForbidden_with_duplicates (F D sorted sortedWithD : List Domain) (c : Domain)
    (hD : ∀ d ∈ D, d ∈ F) (hsort : DomainChecker.IsSortResult F sorted)
    (hsortD : DomainChecker.IsSortResult (F ++ D) sortedWithD) :
    (DomainChecker.ctor sortedWithD).IsForbidden c =
      (DomainChecker.ctor sorted).IsForbidden c := by
  refine DomainChecker.isForbidden_congr (F ++ D) F sortedWithD sorted c hsortD.1 hsort.1 ?_
  intro d
  rw [List.mem_append]
  exact ⟨fun h => h.elim id (hD d), Or.inl⟩

/-- Witness of C11: `F` is `ya.ru`, `com` and `D` is `com`, `ya.ru`, `com`; the
candidate is `m.ya.ru`. -/
theorem isForbidden_with_duplicates_witness :
    (DomainChecker.ctor
        [⟨["com".toList]⟩, ⟨["com".toList]⟩, ⟨["com".toList]⟩, ⟨["ya".toList, "ru".toList]⟩,
          ⟨["ya".toList, "ru".toList]⟩]).IsForbidden
        ⟨["m".toList, "ya".toList, "ru".toList]⟩ =
      (DomainChecker.ctor [⟨["com".toList]⟩, ⟨["ya".toList, "ru".toList]⟩]).IsForbidden
        ⟨["m".toList, "ya".toList, "ru".toList]⟩ :=
  isForbidden_with_duplicates
    [⟨["ya".toList, "ru".toList]⟩, ⟨["com".toList]⟩]
    [⟨["com".toList]⟩, ⟨["ya".toList, "ru".toList]⟩, ⟨["com".toList]⟩]
    _ _ _ (by decide) ⟨by decide, by decide⟩ ⟨by decide, by decide⟩

/-- C12: for all domains `A` and `B` with `A == B`, `A.IsSubdomain(B)` is
false; in particular `A.IsSubdomain(A)` is false for every `A`. -/
theorem isSubdomain_false_of_eq (A B : Domain) :
    (Domain.eq A B = true → Domain.IsSubdomain A B = false) ∧
      Domain.IsSubdomain A A = false := by
  have key : ∀ X Y : Domain, X.data_ = Y.data_ → Domain.IsSubdomain X Y = false := by
    intro X Y hXY
    cases h : Domain.IsSubdomain X Y with
    | false => rfl
    | true =>
      have := ((Domain.isSubdomain_true_iff X Y).1 h).1
      rw [hXY] at this
      exact absurd this (Nat.lt_irrefl _)
  exact ⟨fun h => key A B ((Domain.eq_true_iff A B).1 h), key A A rfl⟩

/-- Witness of C12: `A` and `B` are both `ya.ru`. -/
theorem isSubdomain_false_of_eq_witness :
    Domain.IsSubdomain ⟨["ya".toList, "ru".toList]⟩ ⟨["ya".toList, "ru".toList]⟩ = false :=
  (isSubdomain_false_of_eq ⟨["ya".toList, "ru".toList]⟩ ⟨["ya".toList, "ru".toList]⟩).1
    (by decide)

/-- C13: `operator==` is reflexive and symmetric: `A == A` is true for every
domain `A`, and `A == B` has the same value as `B == A` for all domains `A`
and `B`. -/
theorem eq_reflexive_symmetric (A B : Domain) :
    Domain.eq A A = true ∧ Domain.eq A B = Domain.eq B A := by
  refine ⟨(Domain.eq_true_iff A A).2 rfl, ?_⟩
  rw [Bool.eq_iff_iff, Domain.eq_true_iff, Domain.eq_true_iff]
  exact eq_comm

/-- C14: for every forbidden list `F` and every candidate `c` whose top-level
(last) label differs from the top-level label of every entry of `F`, the
checker constructed from `F` (whatever order the sort leaves `F` in) reports
`c` as not forbidden. -/
theorem isForbidden_false_of_unrelated (F sorted : List Domain) (c : Domain)
    (hsort : DomainChecker.IsSortResult F sorted)
    (hdiff : ∀ f ∈ F, f.data_.getLast? ≠ c.data_.getLast?) :
    (DomainChecker.ctor sorted).IsForbidden c = false := by
  cases h : (DomainChecker.ctor sorted).IsForbidden c with
  | false => rfl
  | true =>
    obtain ⟨f, hf, hne, p, hp⟩ := (DomainChecker.isForbidden_ctor_any F sorted c hsort.1).1 h
    exact absurd (by rw [← hp, List.getLast?_append_of_ne_nil _ hne]) (hdiff f hf)

/-- Witness of C14: forbidden `ya.ru` and the candidate `ya.com`. -/
theorem isForbidden_false_of_unrelated_witness :
    (DomainChecker.ctor [⟨["ya".toList, "ru".toList]⟩]).IsForbidden
      ⟨["ya".toList, "com".toList]⟩ = false :=
  isForbidden_false_of_unrelated [⟨["ya".toList, "ru".toList]⟩] _ _
    ⟨by decide, by decide⟩ (by decide)

/-- C15: inserting a subsumed domain is a no-op. For every trie `top` and every
domain `g` such that some prefix `p` of the root-to-leaf label path of `g`
(possibly the whole path) is marked as a terminus in `top`, the per-domain
insertion step of the constructor returns `top` unchanged. -/
theorem insertDomain_subsumed_unchanged (top : SubDomain) (g : Domain) (p : List Str)
    (hp : p <+: g.GetSubDomains.reverse) (hterm : top.isTerminus p = true) :
    DomainChecker.insertDomain top g = top :=
  DomainChecker.insertLabels_of_isTerminus_prefix p top _ hterm hp

/-- Witness of C15: the trie built from `com`, `ya.ru`, the domain `m.ya.ru`
and the terminus path `ru`, `ya`. -/
theorem insertDomain_subsumed_unchanged_witness :
    DomainChecker.insertDomain
        (DomainChecker.buildLoop [⟨["com".toList]⟩, ⟨["ya".toList, "ru".toList]⟩])
        ⟨["m".toList, "ya".toList, "ru".toList]⟩ =
      DomainChecker.buildLoop [⟨["com".toList]⟩, ⟨["ya".toList, "ru".toList]⟩] :=
  insertDomain_subsumed_unchanged _ ⟨["m".toList, "ya".toList, "ru".toList]⟩
    ["ru".toList, "ya".toList] (by decide) (by decide)

/-- C16: the trie index agrees with a linear scan that uses the predicates of
`Domain`. For every forbidden list `F` and every candidate `c`, the checker
constructed from `F` (whatever order the sort leaves `F` in) reports `c` as
forbidden if and only if some `f` in `F` has `f == c` or `f.IsSubdomain(c)`,
the forbidden entry being the receiver. Every `Domain` object holds at least
one label, which is the hypothesis `hne` on the forbidden domains. -/
theorem isForbidden_iff_linear_scan (F sorted : List Domain) (c : Domain)
    (hne : ∀ f ∈ F, f.data_ ≠ []) (hsort : DomainChecker.IsSortResult F sorted) :
    (DomainChecker.ctor sorted).IsForbidden c = true ↔
      ∃ f ∈ F, Domain.eq f c = true ∨ Domain.IsSubdomain f c = true := by
  rw [DomainChecker.isForbidden_ctor F sorted c hne hsort.1]
  constructor
  · rintro ⟨f, hf, hsuf⟩
    refine ⟨f, hf, ?_⟩
    by_cases hlen : f.data_.length = c.data_.length
    · exact Or.inl ((Domain.eq_true_iff f c).2 (hsuf.eq_of_length hlen))
    · exact Or.inr ((Domain.isSubdomain_true_iff f c).2
        ⟨Nat.lt_of_le_of_ne hsuf.length_le hlen, hsuf⟩)
  · rintro ⟨f, hf, h | h⟩
    · exact ⟨f, hf, (Domain.eq_true_iff f c).1 h ▸ List.suffix_refl _⟩
    · exact ⟨f, hf, ((Domain.isSubdomain_true_iff f c).1 h).2⟩

/-- Witness of C16: forbidden `maps.me`, `ya.ru`, sorted as `ya.ru`, `maps.me`,
and the candidate `m.ya.ru`. -/
theorem isForbidden_iff_linear_scan_witness :
    (DomainChecker.ctor
        [⟨["ya".toList, "ru".toList]⟩, ⟨["maps".toList, "me".toList]⟩]).IsForbidden
        ⟨["m".toList, "ya".toList, "ru".toList]⟩ = true ↔
      ∃ f ∈ ([⟨["maps".toList, "me".toList]⟩, ⟨["ya".toList, "ru".toList]⟩] : List Domain),
        Domain.eq f ⟨["m".toList, "ya".toList, "ru".toList]⟩ = true ∨
          Domain.IsSubdomain f ⟨["m".toList, "ya".toList, "ru".toList]⟩ = true :=
  isForbidden_iff_linear_scan _ _ _ (by decide) ⟨by decide, by decide⟩

/-- C17: the answers do not depend on the order of the forbidden list. For
every forbidden list `F`, every permutation `F2` of `F` and every candidate
`c`, the checker constructed from `F2` gives the same answer for `c` as the
checker constructed from `F`, whatever order the sort leaves either list in;
with `F2 = F` this compares two outcomes of the unstable sort. -/
theorem isForbidden_order_independent (F F2 sorted sorted2 : List Domain) (c : Domain)
    (hperm : F2.Perm F) (hsort : DomainChecker.IsSortResult F sorted)
    (hsort2 : DomainChecker.IsSortResult F2 sorted2) :
    (DomainChecker.ctor sorted2).IsForbidden c = (DomainChecker.ctor sorted).IsForbidden c :=
  DomainChecker.isForbidden_congr F2 F sorted2 sorted c hsort2.1 hsort.1
    (fun _ => hperm.mem_iff)

/-- Witness of C17: `F` is `ya.ru`, `maps.me`, `com`, `F2` is `com`, `maps.me`,
`ya.ru`, and the two sorts order the entries of two labels differently. -/
theorem isForbidden_order_independent_witness :
    (DomainChecker.ctor
        [⟨["com".toList]⟩, ⟨["maps".toList, "me".toList]⟩,
          ⟨["ya".toList, "ru".toList]⟩]).IsForbidden ⟨["m".toList, "maps".toList, "me".toList]⟩ =
      (DomainChecker.ctor
        [⟨["com".toList]⟩, ⟨["ya".toList, "ru".toList]⟩,
          ⟨["maps".toList, "me".toList]⟩]).IsForbidden
        ⟨["m".toList, "maps".toList, "me".toList]⟩ :=
  isForbidden_order_independent
    [⟨["ya".toList, "ru".toList]⟩, ⟨["maps".toList, "me".toList]⟩, ⟨["com".toList]⟩]
    [⟨["com".toList]⟩, ⟨["maps".toList, "me".toList]⟩, ⟨["ya".toList, "ru".toList]⟩]
    _ _ _ (by decide) ⟨by decide, by decide⟩ ⟨by decide, by decide⟩

/-- C18: after the construction from any forbidden list `F` (whatever order
the sort leaves `F` in), a root-to-leaf label path is marked as a terminus in
the trie if and only if it is the label sequence, top-level label first, of
some `f` in `F` such that no entry of `F` has strictly fewer labels than `f`
and is a label-suffix of `f`; and no terminus path is a prefix of another one.
Every `Domain` object holds at least one label, which is the hypothesis `hne`
on the forbidden domains. -/
theorem termini_are_minimal_forbidden (F sorted : List Domain)
    (hne : ∀ f ∈ F, f.data_ ≠ []) (hsort : DomainChecker.IsSortResult F sorted) :
    (∀ path : List Str,
      (DomainChecker.ctor sorted).forbidden_domains_.isTerminus path = true ↔
        ∃ f ∈ F, f.GetSubDomains.reverse = path ∧
          ∀ g ∈ F, ¬ (g.data_.length < f.data_.length ∧ g.data_ <:+ f.data_)) ∧
    ∀ path path2 : List Str,
      (DomainChecker.ctor sorted).forbidden_domains_.isTerminus path = true →
      (DomainChecker.ctor sorted).forbidden_domains_.isTerminus path2 = true →
      path <+: path2 → path = path2 := by
  have hmem : ∀ d, d ∈ sorted ↔ d ∈ F := fun _ => hsort.1.mem_iff
  have hchar := DomainChecker.isTerminus_buildLoop sorted (fun d hd => hne d ((hmem d).1 hd))
  constructor
  · intro path
    rw [DomainChecker.ctor, hchar path]
    simp only [Domain.GetSubDomains]
    constructor
    · rintro ⟨⟨f, hf, hfp⟩, hmin⟩
      refine ⟨f, (hmem f).1 hf, hfp, ?_⟩
      rintro g hg ⟨hlt, hsuf⟩
      have := hmin g ((hmem g).2 hg) (hfp ▸ List.reverse_prefix.mpr hsuf)
      have hlen := congrArg List.length (this.trans hfp.symm)
      simp only [List.length_reverse] at hlen
      omega
    · rintro ⟨f, hf, hfp, hmin⟩
      refine ⟨⟨f, (hmem f).2 hf, hfp⟩, ?_⟩
      intro g hg hpre
      rw [← hfp] at hpre ⊢
      have hsuf : g.data_ <:+ f.data_ := List.reverse_prefix.mp hpre
      have hnlt : ¬ g.data_.length < f.data_.length :=
        fun hlt => hmin g ((hmem g).1 hg) ⟨hlt, hsuf⟩
      have hle := hsuf.length_le
      exact hpre.eq_of_length (by simp only [List.length_reverse]; omega)
  · intro path path2 h1 h2 hpre
    rw [DomainChecker.ctor, hchar] at h1 h2
    obtain ⟨⟨f, hf, hfp⟩, _⟩ := h1
    have := h2.2 f hf (hfp ▸ hpre)
    exact hfp.symm.trans this

/-- Witness of C18: forbidden `m.ya.ru`, `ya.ru`, `com`, `maps.me`, sorted as
`com`, `ya.ru`, `maps.me`, `m.ya.ru`. -/
theorem termini_are_minimal_forbidden_witness :
    (DomainChecker.ctor
        [⟨["com".toList]⟩, ⟨["ya".toList, "ru".toList]⟩, ⟨["maps".toList, "me".toList]⟩,
          ⟨["m".toList, "ya".toList, "ru".toList]⟩]).forbidden_domains_.isTerminus
        ["ru".toList, "ya".toList] = true ∧
      (DomainChecker.ctor
        [⟨["com".toList]⟩, ⟨["ya".toList, "ru".toList]⟩, ⟨["maps".toList, "me".toList]⟩,
          ⟨["m".toList, "ya".toList, "ru".toList]⟩]).forbidden_domains_.isTerminus
        ["ru".toList, "ya".toList, "m".toList] = false := by
  have h := (termini_are_minimal_forbidden
    [⟨["m".toList, "ya".toList, "ru".toList]⟩, ⟨["ya".toList, "ru".toList]⟩,
      ⟨["com".toList]⟩, ⟨["maps".toList, "me".toList]⟩]
    [⟨["com".toList]⟩, ⟨["ya".toList, "ru".toList]⟩, ⟨["maps".toList, "me".toList]⟩,
      ⟨["m".toList, "ya".toList, "ru".toList]⟩]
    (by decide) ⟨by decide, by decide⟩).1
  refine ⟨(h _).2 (by decide), ?_⟩
  rw [← Bool.not_eq_true, h]
  decide

/-- C19: when the forbidden domains are processed in the order the sort of the
constructor leaves them in, every execution of `child.reset()` during the
construction finds `child` already null, for every forbidden list. -/
theorem reset_child_is_null (F sorted : List Domain)
    (hsort : DomainChecker.IsSortResult F sorted) :
    ∀ child ∈ DomainChecker.buildResets (SubDomain.mk []) sorted, child = none :=
  DomainChecker.buildResets_eq_none sorted (SubDomain.mk []) hsort.2
    (fun q hq => by rw [SubDomain.isInner_empty] at hq; cases hq)

/-- Witness of C19: forbidden `b.maps.me`, `m.ya.ru`, `ya.ru`, `a.maps.me`,
`com`, sorted as `com`, `ya.ru`, `a.maps.me`, `m.ya.ru`, `b.maps.me`: `reset`
is executed four times, each time on a null pointer. -/
theorem reset_child_is_null_witness :
    (DomainChecker.buildResets (SubDomain.mk [])
        [⟨["com".toList]⟩, ⟨["ya".toList, "ru".toList]⟩,
          ⟨["a".toList, "maps".toList, "me".toList]⟩,
          ⟨["m".toList, "ya".toList, "ru".toList]⟩,
          ⟨["b".toList, "maps".toList, "me".toList]⟩]).length = 4 ∧
      (DomainChecker.buildResets (SubDomain.mk [])
        [⟨["com".toList]⟩, ⟨["ya".toList, "ru".toList]⟩,
          ⟨["a".toList, "maps".toList, "me".toList]⟩,
          ⟨["m".toList, "ya".toList, "ru".toList]⟩,
          ⟨["b".toList, "maps".toList, "me".toList]⟩]).all Option.isNone = true := by
  refine ⟨by decide, List.all_eq_true.mpr (fun child hchild => ?_)⟩
  rw [reset_child_is_null
    [⟨["b".toList, "maps".toList, "me".toList]⟩, ⟨["m".toList, "ya".toList, "ru".toList]⟩,
      ⟨["ya".toList, "ru".toList]⟩, ⟨["a".toList, "maps".toList, "me".toList]⟩,
      ⟨["com".toList]⟩]
    _ ⟨by decide, by decide⟩ child hchild]
  rfl

/-- The order matters for `reset`: when `m.ya.ru` is processed before `ya.ru`,
the second execution of `child.reset()` finds a subtree and discards it. -/
theorem reset_discards_when_unsorted :
    (DomainChecker.buildResets (SubDomain.mk [])
      [⟨["m".toList, "ya".toList, "ru".toList]⟩, ⟨["ya".toList, "ru".toList]⟩]).map
        Option.isSome = [false, true] := by
  decide

end DomainFilter
